import Mathlib

/-!
# MailHog SMTP session (pkg/smtp/session.go)

A shallow embedding of `Session` and `Accept` from `pkg/smtp/session.go`, and of
`MongoDB.Store` from `pkg/storage/mongodb.go`.

* Go strings are byte sequences; they are embedded as lists of characters, one
  character per byte.
* Everything the session does to the outside world (reads from the reader, writes
  to the writer, `Close` on the connection, calls of `Protocol.Parse`, polls of
  `ChaosMonkey.Disconnect`) is appended, in program order, to `Session.trace`.
* The collaborators that live in other packages (`Protocol`, `Reply`,
  `ChaosMonkey`, `Storage`) are parameters.
* The `for strings.Contains(...)` loop of `Read` and the `for session.Read()` loop of
  `Accept` take a bound on the number of iterations; `none` / `false` reports that
  the bound was reached before the loop ended.
-/

namespace MailHog

/-- A Go string: a sequence of bytes. -/
abbrev Str := List Char

/-- The line terminator looked for by `Session.Read`. -/
def CRLF : Str := ['\r', '\n']

/-- Go `strings.Contains(s, sub)`: `sub` occurs in `s` as a contiguous run. -/
def stringsContains : Str → Str → Bool
  | [], sub => sub.isEmpty
  | c :: t, sub => sub.isPrefixOf (c :: t) || stringsContains t sub

/-- Go `strings.SplitN(s, "\r\n", 2)` when `s` contains the terminator: the text
before the first terminator and the text after it. -/
def cutCRLF : Str → Option (Str × Str)
  | [] => none
  | c :: t =>
    if CRLF.isPrefixOf (c :: t) then some ([], t.drop 1)
    else (cutCRLF t).map (fun p => (c :: p.1, p.2))

/-- The text of a buffer up to its first line terminator (the whole buffer when
there is none). -/
def firstLine (buf : Str) : Str :=
  match cutCRLF buf with
  | some (l, _) => l
  | none => buf

/-- The external `Protocol` and `Reply` as `Session` uses them. `σ` is the state
    behind the `*Protocol` pointer (it also carries whatever the handlers wired in
    by `Accept` reach: storage, the message channel), `ρ` is `Reply`. -/
structure Protocol (σ ρ : Type) where
  /-- `NewProtocol()` followed by the assignments of `Hostname` and the handlers. -/
  NewProtocol : Str → σ
  /-- `proto.Start()`: the greeting. -/
  Start : σ → σ × ρ
  /-- `proto.Parse(line)`: the remainder of the buffer and an optional reply. -/
  Parse : σ → Str → σ × Str × Option ρ
  /-- `reply.Status`. -/
  Status : ρ → Int
  /-- `reply.Lines()`. -/
  Lines : ρ → List Str

/-- The external `monkey.ChaosMonkey` interface. `Disconnect i` is the answer of the
    `i`-th call of `Disconnect()` (counted from 0). -/
structure ChaosMonkey where
  LinkSpeed : Option Nat
  Disconnect : Nat → Bool
  ValidMAIL : Str → Bool
  ValidRCPT : Str → Bool
  ValidAUTH : Str → List Str → Bool

/-- What the session does to its environment. -/
inductive Event (ρ : Type) where
  /-- `c.reader.Read(buf)` returned `n = data.length` bytes and `err`. -/
  | read (data : Str) (err : Option Str)
  /-- `c.proto.Parse(buf)` was called and returned `reply`. -/
  | parse (buf : Str) (reply : Option ρ)
  /-- `c.writer.Write(bytes)`. -/
  | write (bytes : Str)
  /-- `c.conn.Close()`. -/
  | close
  /-- `monkey.Disconnect()` was called and answered. -/
  | disconnect (answer : Bool)
  deriving DecidableEq, Repr

/-- One result `(n, err)` of `c.reader.Read(buf)`, with the `n` bytes placed in
    `buf`; `buf` has 1024 bytes, so `data.length ≤ 1024` for a real reader. -/
structure ReadResult where
  data : Str
  err : Option Str
  deriving DecidableEq, Repr

/-- The `Session` struct. `conn`, `reader` and `writer` are represented by `trace`,
    the operations performed so far. -/
structure Session (σ ρ : Type) where
  proto : σ
  remoteAddress : Str
  isTLS : Bool
  line : Str
  link : Option Nat
  monkey : Option ChaosMonkey
  trace : List (Event ρ)

variable {σ ρ τ μ α : Type}

/-- `Session.Write`: one `c.writer.Write` per element of `reply.Lines()`. -/
def Session.Write (P : Protocol σ ρ) (c : Session σ ρ) (reply : ρ) : Session σ ρ :=
  (P.Lines reply).foldl (fun c l => { c with trace := c.trace ++ [Event.write l] }) c

/-- The loop `for strings.Contains(c.line, "\r\n") { ... }` of `Session.Read`, run for
    at most `fuel` iterations. `some true`: the loop ended and `Read` returns true;
    `some false`: `Read` returned false from inside the loop; `none`: the loop
    condition still held after `fuel` iterations. -/
def Session.drain (P : Protocol σ ρ) : Nat → Session σ ρ → Session σ ρ × Option Bool
  | 0, c => if stringsContains c.line CRLF then (c, none) else (c, some true)
  | fuel + 1, c =>
    if stringsContains c.line CRLF then
      match P.Parse c.proto c.line with
      | (proto, line, reply) =>
        let c1 : Session σ ρ :=
          { c with proto := proto, line := line, trace := c.trace ++ [Event.parse c.line reply] }
        match reply with
        | some reply =>
          let c2 := c1.Write P reply
          if P.Status reply = 221 then
            ({ c2 with trace := c2.trace ++ [Event.close] }, some false)
          else Session.drain P fuel c2
        | none => Session.drain P fuel c1
    else (c, some true)

/-- `Session.Read`, given the result `r` of `c.reader.Read(buf)`. -/
def Session.Read (P : Protocol σ ρ) (fuel : Nat) (r : ReadResult) (c : Session σ ρ) :
    Session σ ρ × Option Bool :=
  let c : Session σ ρ := { c with trace := c.trace ++ [Event.read r.data r.err] }
  if r.data.length = 0 then
    ({ c with trace := c.trace ++ [Event.close] }, some false)
  else if r.err.isSome then
    (c, some false)
  else
    Session.drain P fuel { c with line := c.line ++ r.data }

/-- The loop `for session.Read() { ... }` of `Accept`, run for at most `fuel`
    iterations; `i` counts the reads made so far and `reader i` is the result of
    the next one. The flag tells whether the loop ended. -/
def acceptLoop (P : Protocol σ ρ) (monkey : Option ChaosMonkey) (reader : Nat → ReadResult)
    (inner : Nat) : Nat → Nat → Session σ ρ → Session σ ρ × Bool
  | 0, _, c => (c, false)
  | fuel + 1, i, c =>
    match c.Read P inner (reader i) with
    | (c1, some true) =>
      match monkey with
      | some m =>
        let c2 : Session σ ρ := { c1 with trace := c1.trace ++ [Event.disconnect (m.Disconnect i)] }
        if m.Disconnect i then ({ c2 with trace := c2.trace ++ [Event.close] }, true)
        else acceptLoop P monkey reader inner fuel (i + 1) c2
      | none => acceptLoop P monkey reader inner fuel (i + 1) c1
    | (c1, some false) => (c1, true)
    | (c1, none) => (c1, false)

/-- The session `Accept` builds, after `proto.Start()`. -/
def newSession (P : Protocol σ ρ) (remoteAddress hostname : Str) (monkey : Option ChaosMonkey) :
    Session σ ρ × ρ :=
  let link : Option Nat :=
    match monkey with
    | some m => m.LinkSpeed
    | none => none
  let started := P.Start (P.NewProtocol hostname)
  ({ proto := started.1, remoteAddress := remoteAddress, isTLS := false, line := [],
     link := link, monkey := monkey, trace := [] }, started.2)

/-- `Accept`. `inner` bounds the iterations of the loop in each `Read`, `outer`
    those of the read loop. The flag tells whether `Accept` returned; the deferred
    `conn.Close()` runs when it does. -/
def Accept (P : Protocol σ ρ) (remoteAddress hostname : Str) (monkey : Option ChaosMonkey)
    (reader : Nat → ReadResult) (inner outer : Nat) : Session σ ρ × Bool :=
  let s := newSession P remoteAddress hostname monkey
  let session := s.1.Write P s.2
  match acceptLoop P monkey reader inner outer 0 session with
  | (c, true) => ({ c with trace := c.trace ++ [Event.close] }, true)
  | (c, false) => (c, false)

/-- `Session.validateAuthentication`; `unrecognised` is `ReplyUnrecognisedCommand()`. -/
def Session.validateAuthentication (unrecognised : ρ) (c : Session σ ρ) (mechanism : Str)
    (args : List Str) : Option ρ × Bool :=
  match c.monkey with
  | some m =>
    let ok := m.ValidAUTH mechanism args
    if !ok then (some unrecognised, false) else (none, true)
  | none => (none, true)

/-- `Session.validateRecipient`. -/
def Session.validateRecipient (c : Session σ ρ) (rcpt : Str) : Bool :=
  match c.monkey with
  | some m =>
    let ok := m.ValidRCPT rcpt
    if !ok then false else true
  | none => true

/-- `Session.validateSender`. -/
def Session.validateSender (c : Session σ ρ) (sender : Str) : Bool :=
  match c.monkey with
  | some m =>
    let ok := m.ValidMAIL sender
    if !ok then false else true
  | none => true

/-- The number of `Close` calls in a trace. -/
def closeCount (t : List (Event ρ)) : Nat :=
  (t.filter (fun e => match e with | Event.close => true | _ => false)).length

/-- The byte strings written, in order. -/
def writes (t : List (Event ρ)) : List Str :=
  t.filterMap (fun e => match e with | Event.write b => some b | _ => none)

/-- The buffers handed to `Protocol.Parse`, in order. -/
def parsed (t : List (Event ρ)) : List Str :=
  t.filterMap (fun e => match e with | Event.parse b _ => some b | _ => none)

/-! ### Predicates and projections used in the statements -/

/-- Every `Parse` call on a buffer that contains a line terminator returns a
    strictly shorter remainder. -/
def Shrinks (P : Protocol σ ρ) : Prop :=
  ∀ s buf, stringsContains buf CRLF = true → (P.Parse s buf).2.1.length < buf.length

/-- `Parse` consumes exactly one terminated line per call: on a buffer whose first
    line is `l` it returns the text after that line's terminator, and the new state
    and the reply are `step` of the old state and `l`. -/
def FramedBy (P : Protocol σ ρ) (step : σ → Str → σ × Option ρ) : Prop :=
  ∀ s buf l rest, cutCRLF buf = some (l, rest) →
    P.Parse s buf = ((step s l).1, rest, (step s l).2)

/-- A `Parse` call that returned a reply with status 221. -/
def is221 (P : Protocol σ ρ) (e : Event ρ) : Prop :=
  ∃ buf reply, e = Event.parse buf (some reply) ∧ P.Status reply = 221

/-- A stretch of trace with no `Close` and no `Parse` call answered with status 221. -/
def Calm (P : Protocol σ ρ) (t : List (Event ρ)) : Prop :=
  ∀ e ∈ t, e ≠ Event.close ∧ ¬ is221 P e

/-- What the protocol and the peer see of an event: reads are internal, and of a
    buffer handed to `Parse` the protocol consumes the first line. -/
def view : Event ρ → Option (Event ρ)
  | Event.read _ _ => none
  | Event.parse buf reply => some (Event.parse (firstLine buf) reply)
  | e => some e

/-- The trace as the protocol and the peer see it. -/
def viewT (t : List (Event ρ)) : List (Event ρ) := t.filterMap view

/-- `Session.Read` called once per chunk, each chunk being the bytes of one
    error-free read, for as long as `Read` returns true (the way the loop of `Accept`
    calls it). Returns the session, the last result, and the chunks not read. -/
def readChunks (P : Protocol σ ρ) (fuel : Nat) :
    List Str → Session σ ρ → Session σ ρ × Option Bool × List Str
  | [], c => (c, some true, [])
  | x :: xs, c =>
    match c.Read P fuel ⟨x, none⟩ with
    | (c1, some true) => readChunks P fuel xs c1
    | (c1, r) => (c1, r, xs)

/-- `Session.Read` called once per chunk whatever the previous call returned. -/
def readEvery (P : Protocol σ ρ) (fuel : Nat) : List Str → Session σ ρ → Session σ ρ
  | [], c => c
  | x :: xs, c => readEvery P fuel xs (c.Read P fuel ⟨x, none⟩).1

/-- The last events of the loop of `Accept`, by the way the loop ends: a failed read
    that delivered bytes; a read that delivered none, and the `Close` of `Read`; a
    `Parse` call answered with 221, the writes of its reply and the `Close` of `Read`;
    a poll of the fault injector answered true, and the `Close` of the loop. -/
def LoopEnd (P : Protocol σ ρ) (monkey : Option ChaosMonkey) (tail : List (Event ρ)) : Prop :=
  (∃ data err, data ≠ [] ∧ tail = [Event.read data (some err)]) ∨
  (∃ err, tail = [Event.read [] err, Event.close]) ∨
  (∃ buf reply, P.Status reply = 221 ∧
    tail = Event.parse buf (some reply) :: ((P.Lines reply).map Event.write ++ [Event.close])) ∨
  ((∃ m, monkey = some m) ∧ tail = [Event.disconnect true, Event.close])

/-- Two sessions that the protocol and the peer cannot tell apart: same protocol
    state, same buffer, same visible trace. -/
def Alike (a b : Session σ ρ) : Prop :=
  a.proto = b.proto ∧ a.line = b.line ∧ viewT a.trace = viewT b.trace

/-! ### A concrete protocol, for evaluating the definitions -/

/-- A concrete reply: a status and the lines to send. -/
structure DemoReply where
  Status : Int
  lines : List Str
  deriving DecidableEq, Repr

/-- The line handler of the concrete protocol: `QUIT` is answered with status 221,
    any other line with status 250; the state counts the lines seen. -/
def demoStep (s : Nat) (l : Str) : Nat × Option DemoReply :=
  (s + 1,
    if l = "QUIT".data then some ⟨221, ["221 Bye\r\n".data]⟩
    else some ⟨250, ["250 Ok\r\n".data]⟩)

/-- A line-at-a-time protocol over `demoStep`. -/
def demoProto : Protocol Nat DemoReply where
  NewProtocol := fun _ => 0
  Start := fun s => (s, ⟨220, ["220 hello\r\n".data]⟩)
  Parse := fun s buf =>
    match cutCRLF buf with
    | some (l, rest) => ((demoStep s l).1, rest, (demoStep s l).2)
    | none => (s, buf, none)
  Status := fun r => r.Status
  Lines := fun r => r.lines

/-- A fault injector that asks for a disconnect at every poll and rejects
    everything. -/
def demoMonkey : ChaosMonkey where
  LinkSpeed := none
  Disconnect := fun _ => true
  ValidMAIL := fun _ => false
  ValidRCPT := fun _ => false
  ValidAUTH := fun _ _ => false

/-- A fresh session of `demoProto`. -/
def demoSession : Session Nat DemoReply :=
  { proto := 0, remoteAddress := [], isTLS := false, line := [], link := none,
    monkey := none, trace := [] }

/-- `MongoDB.Store` (pkg/storage/mongodb.go). `Insert` stands for
    `mongo.Collection.Insert`, `ID` for the field `m.ID`. -/
def MongoDB.Store (Insert : τ → μ → τ × Option Str) (ID : μ → Str) (mongo : τ) (m : μ) :
    τ × (Str × Option Str) :=
  match Insert mongo m with
  | (mongo1, some err) => (mongo1, ([], some err))
  | (mongo1, none) => (mongo1, (ID m, none))

/-- What `acceptMessage` acts on: the state behind `c.storage` and the messages
    sent on `c.messageChan` so far (a send is an append; a send that blocks for ever
    is not represented). -/
structure Sinks (τ μ : Type) where
  storage : τ
  /-- The messages handed to `Store` so far. -/
  stored : List μ
  messageChan : List μ

/-- `Session.acceptMessage`. `Hostname` reads `c.proto.Hostname`, `msgParse` is
    `msg.Parse`, `Store` is `c.storage.Store`. -/
def Session.acceptMessage (Hostname : σ → Str) (msgParse : α → Str → μ)
    (Store : τ → μ → τ × (Str × Option Str)) (c : Session σ ρ) (w : Sinks τ μ) (msg : α) :
    Sinks τ μ × (Str × Option Str) :=
  let m := msgParse msg (Hostname c.proto)
  let stored := Store w.storage m
  let w1 : Sinks τ μ := { w with storage := stored.1, stored := w.stored ++ [m] }
  let w2 : Sinks τ μ := { w1 with messageChan := w1.messageChan ++ [m] }
  (w2, stored.2)

/-- A storage whose `Insert` fails on the empty message and appends otherwise. -/
def demoInsert (db : List Str) (m : Str) : List Str × Option Str :=
  if m = [] then (db, some "insert failed".data) else (db ++ [m], none)


/-! ## Theorems -/

theorem Write_eq (P : Protocol σ ρ) (c : Session σ ρ) (reply : ρ) :
    c.Write P reply = { c with trace := c.trace ++ (P.Lines reply).map Event.write } := by
  unfold Session.Write
  generalize P.Lines reply = ls
  induction ls generalizing c with
  | nil => simp
  | cons l ls ih => simp [List.foldl, ih]

theorem writes_append (a b : List (Event ρ)) : writes (a ++ b) = writes a ++ writes b := by
  simp [writes, List.filterMap_append]

theorem writes_map_write (ls : List Str) : writes (ls.map (Event.write : Str → Event ρ)) = ls := by
  induction ls with
  | nil => rfl
  | cons l ls ih =>
    simp only [List.map_cons, writes, List.filterMap_cons] at ih ⊢
    simp [ih]

theorem closeCount_append (a b : List (Event ρ)) :
    closeCount (a ++ b) = closeCount a + closeCount b := by
  simp [closeCount, List.filter_append]

theorem closeCount_map_write (ls : List Str) :
    closeCount (ls.map (Event.write : Str → Event ρ)) = 0 := by
  induction ls with
  | nil => rfl
  | cons l ls ih => simp [closeCount, List.filter_cons]

/-- C10. `Session.Write` issues exactly one write per element of `reply.Lines()`, in
    list order, each carrying that line: nothing else is appended to the trace, the
    byte strings written are `reply.Lines()`, the bytes sent are their concatenation,
    and a reply without lines produces no write. Nothing else in the session changes. -/
theorem Write_lines_in_order (P : Protocol σ ρ) (c : Session σ ρ) (reply : ρ) :
    (c.Write P reply).trace = c.trace ++ (P.Lines reply).map Event.write ∧
    writes (c.Write P reply).trace = writes c.trace ++ P.Lines reply ∧
    (writes (c.Write P reply).trace).flatten = (writes c.trace).flatten ++ (P.Lines reply).flatten ∧
    (P.Lines reply = [] ↔ (c.Write P reply).trace = c.trace) ∧
    (c.Write P reply).line = c.line ∧ (c.Write P reply).proto = c.proto := by
  rw [Write_eq]
  refine ⟨rfl, ?_, ?_, ?_, rfl, rfl⟩
  · simp [writes_append, writes_map_write]
  · simp [writes_append, writes_map_write]
  · constructor
    · intro h; simp [h]
    · intro h
      have h2 : (P.Lines reply).map (Event.write : Str → Event ρ) = [] := by
        simpa using h
      simpa using h2

/-- C7. `validateSender` and `validateRecipient` answer false exactly when a fault
    injector is configured and its `ValidMAIL` / `ValidRCPT` is false; without a fault
    injector both answer true. -/
theorem validate_passthrough (c : Session σ ρ) (addr : Str) :
    (c.validateSender addr = false ↔ ∃ m, c.monkey = some m ∧ m.ValidMAIL addr = false) ∧
    (c.validateRecipient addr = false ↔ ∃ m, c.monkey = some m ∧ m.ValidRCPT addr = false) ∧
    (c.monkey = none → c.validateSender addr = true ∧ c.validateRecipient addr = true) := by
  unfold Session.validateSender Session.validateRecipient
  cases hm : c.monkey with
  | none => simp
  | some m => simp

/-- C8. `validateAuthentication` returns `(ReplyUnrecognisedCommand(), false)` exactly
    when a fault injector is configured and its `ValidAUTH` is false, and `(nil, true)`
    in every other case; so the reply is non-nil exactly when `ok` is false. -/
theorem validateAuthentication_result (unrecognised : ρ) (c : Session σ ρ) (mechanism : Str)
    (args : List Str) :
    (c.validateAuthentication unrecognised mechanism args = (some unrecognised, false) ↔
      ∃ m, c.monkey = some m ∧ m.ValidAUTH mechanism args = false) ∧
    (c.validateAuthentication unrecognised mechanism args = (none, true) ↔
      ¬ ∃ m, c.monkey = some m ∧ m.ValidAUTH mechanism args = false) ∧
    ((c.validateAuthentication unrecognised mechanism args).1.isSome = true ↔
      (c.validateAuthentication unrecognised mechanism args).2 = false) := by
  unfold Session.validateAuthentication
  cases hm : c.monkey with
  | none => simp
  | some m => cases hv : m.ValidAUTH mechanism args <;> simp [hv]

/-- C6. `acceptMessage` sends the finalized message `msg.Parse(hostname)` on the
    channel exactly once, whatever `Store` returns, hands that same message to
    `Store`, and returns exactly the `(id, err)` pair of `Store`. -/
theorem acceptMessage_publishes_once (Hostname : σ → Str) (msgParse : α → Str → μ)
    (Store : τ → μ → τ × (Str × Option Str)) (c : Session σ ρ) (w : Sinks τ μ) (msg : α) :
    (c.acceptMessage Hostname msgParse Store w msg).1.messageChan =
      w.messageChan ++ [msgParse msg (Hostname c.proto)] ∧
    (c.acceptMessage Hostname msgParse Store w msg).1.messageChan.length =
      w.messageChan.length + 1 ∧
    (c.acceptMessage Hostname msgParse Store w msg).2 =
      (Store w.storage (msgParse msg (Hostname c.proto))).2 ∧
    (c.acceptMessage Hostname msgParse Store w msg).1.storage =
      (Store w.storage (msgParse msg (Hostname c.proto))).1 ∧
    (c.acceptMessage Hostname msgParse Store w msg).1.stored =
      w.stored ++ [msgParse msg (Hostname c.proto)] := by
  simp [Session.acceptMessage]

theorem drain_zero (P : Protocol σ ρ) (c : Session σ ρ) :
    Session.drain P 0 c = if stringsContains c.line CRLF then (c, none) else (c, some true) := rfl

theorem drain_succ (P : Protocol σ ρ) (f : Nat) (c : Session σ ρ) :
    Session.drain P (f + 1) c =
      if stringsContains c.line CRLF then
        (match (P.Parse c.proto c.line).2.2 with
        | some reply =>
          if P.Status reply = 221 then
            ({ c with proto := (P.Parse c.proto c.line).1, line := (P.Parse c.proto c.line).2.1,
                      trace := c.trace ++ Event.parse c.line (some reply) ::
                        ((P.Lines reply).map Event.write ++ [Event.close]) }, some false)
          else
            Session.drain P f
              { c with proto := (P.Parse c.proto c.line).1, line := (P.Parse c.proto c.line).2.1,
                       trace := c.trace ++ Event.parse c.line (some reply) ::
                         (P.Lines reply).map Event.write }
        | none =>
          Session.drain P f
            { c with proto := (P.Parse c.proto c.line).1, line := (P.Parse c.proto c.line).2.1,
                     trace := c.trace ++ [Event.parse c.line none] })
      else (c, some true) := by
  rw [Session.drain]
  split
  · rcases h : P.Parse c.proto c.line with ⟨p, l, r⟩
    cases r with
    | none => simp
    | some reply => simp [Write_eq]
  · rfl

theorem stringsContains_nil_CRLF : stringsContains [] CRLF = false := rfl

theorem Calm_nil (P : Protocol σ ρ) : Calm P [] := by
  intro e he; simp at he

theorem Calm_append (P : Protocol σ ρ) (a b : List (Event ρ)) :
    Calm P (a ++ b) ↔ Calm P a ∧ Calm P b := by
  simp only [Calm, List.mem_append]
  constructor
  · intro h
    exact ⟨fun e he => h e (Or.inl he), fun e he => h e (Or.inr he)⟩
  · rintro ⟨h1, h2⟩ e (he | he)
    · exact h1 e he
    · exact h2 e he

theorem Calm_cons (P : Protocol σ ρ) (e : Event ρ) (t : List (Event ρ)) :
    Calm P (e :: t) ↔ (e ≠ Event.close ∧ ¬ is221 P e) ∧ Calm P t := by
  simp [Calm]

theorem Calm_writes (P : Protocol σ ρ) (ls : List Str) :
    Calm P (ls.map (Event.write : Str → Event ρ)) := by
  intro e he
  simp only [List.mem_map] at he
  obtain ⟨l, _, rfl⟩ := he
  refine ⟨by simp, ?_⟩
  rintro ⟨buf, reply, h, _⟩
  cases h

theorem not_is221_read (P : Protocol σ ρ) (d : Str) (err : Option Str) :
    ¬ is221 P (Event.read d err) := by
  rintro ⟨buf, reply, h, _⟩; cases h

theorem not_is221_write (P : Protocol σ ρ) (b : Str) : ¬ is221 P (Event.write b) := by
  rintro ⟨buf, reply, h, _⟩; cases h

theorem not_is221_close (P : Protocol σ ρ) : ¬ is221 P (Event.close : Event ρ) := by
  rintro ⟨buf, reply, h, _⟩; cases h

theorem not_is221_disconnect (P : Protocol σ ρ) (b : Bool) :
    ¬ is221 P (Event.disconnect b : Event ρ) := by
  rintro ⟨buf, reply, h, _⟩; cases h

theorem not_is221_parse_none (P : Protocol σ ρ) (b : Str) :
    ¬ is221 P (Event.parse b none) := by
  rintro ⟨buf, reply, h, _⟩; cases h

theorem is221_parse_some (P : Protocol σ ρ) (b : Str) (r : ρ) :
    is221 P (Event.parse b (some r)) ↔ P.Status r = 221 := by
  constructor
  · rintro ⟨buf, reply, h, hs⟩
    cases h; exact hs
  · intro h; exact ⟨b, r, rfl, h⟩

theorem closeCount_of_Calm (P : Protocol σ ρ) (t : List (Event ρ)) (h : Calm P t) :
    closeCount t = 0 := by
  induction t with
  | nil => rfl
  | cons e t ih =>
    rw [Calm_cons] at h
    have := ih h.2
    cases e <;> simp_all [closeCount, List.filter_cons]

/-- The trace a run of the loop of `Read` adds: a calm stretch, and when the loop
    returned false, the `Parse` call answered with 221, the writes of that reply and
    the `Close`. -/
theorem drain_shape (P : Protocol σ ρ) (f : Nat) (c : Session σ ρ) :
    ∃ new, (Session.drain P f c).1.trace = c.trace ++ new ∧
      (((Session.drain P f c).2 ≠ some false ∧ Calm P new) ∨
       ((Session.drain P f c).2 = some false ∧ ∃ pre buf reply, Calm P pre ∧
          P.Status reply = 221 ∧
          new = pre ++ Event.parse buf (some reply) ::
            ((P.Lines reply).map Event.write ++ [Event.close]))) := by
  induction f generalizing c with
  | zero =>
    refine ⟨[], ?_, Or.inl ⟨?_, Calm_nil P⟩⟩
    · rw [drain_zero]; split <;> simp
    · rw [drain_zero]; split <;> simp
  | succ f ih =>
    rw [drain_succ]
    by_cases hc : stringsContains c.line CRLF = true
    · rw [if_pos hc]
      cases hr : (P.Parse c.proto c.line).2.2 with
      | none =>
        simp only
        obtain ⟨new, h1, h2⟩ := ih
          { c with proto := (P.Parse c.proto c.line).1, line := (P.Parse c.proto c.line).2.1,
                   trace := c.trace ++ [Event.parse c.line none] }
        refine ⟨Event.parse c.line none :: new, ?_, ?_⟩
        · rw [h1]; simp
        · have hC : Calm P [(Event.parse c.line none : Event ρ)] := by
            rw [Calm_cons]
            exact ⟨⟨by simp, not_is221_parse_none P _⟩, Calm_nil P⟩
          rcases h2 with ⟨h2, h3⟩ | ⟨h2, pre, buf, reply, h3, h4, h5⟩
          · left
            refine ⟨h2, ?_⟩
            have := (Calm_append P [Event.parse c.line none] new).2 ⟨hC, h3⟩
            simpa using this
          · right
            refine ⟨h2, Event.parse c.line none :: pre, buf, reply, ?_, h4, ?_⟩
            · have := (Calm_append P [Event.parse c.line none] pre).2 ⟨hC, h3⟩
              simpa using this
            · rw [h5]; simp
      | some reply =>
        simp only
        by_cases hs : P.Status reply = 221
        · rw [if_pos hs]
          refine ⟨Event.parse c.line (some reply) ::
            ((P.Lines reply).map Event.write ++ [Event.close]), rfl, Or.inr ⟨rfl, ?_⟩⟩
          exact ⟨[], c.line, reply, Calm_nil P, hs, rfl⟩
        · rw [if_neg hs]
          obtain ⟨new, h1, h2⟩ := ih
            { c with proto := (P.Parse c.proto c.line).1, line := (P.Parse c.proto c.line).2.1,
                     trace := c.trace ++ Event.parse c.line (some reply) ::
                       (P.Lines reply).map Event.write }
          have hC : Calm P (Event.parse c.line (some reply) ::
              (P.Lines reply).map (Event.write : Str → Event ρ)) := by
            rw [Calm_cons]
            exact ⟨⟨by simp, by rw [is221_parse_some]; exact hs⟩, Calm_writes P _⟩
          refine ⟨Event.parse c.line (some reply) :: (P.Lines reply).map Event.write ++ new,
            ?_, ?_⟩
          · rw [h1]; simp
          · rcases h2 with ⟨h2, h3⟩ | ⟨h2, pre, buf, reply2, h3, h4, h5⟩
            · left
              exact ⟨h2, (Calm_append P _ new).2 ⟨hC, h3⟩⟩
            · right
              refine ⟨h2, Event.parse c.line (some reply) ::
                (P.Lines reply).map Event.write ++ pre, buf, reply2, ?_, h4, ?_⟩
              · exact (Calm_append P _ pre).2 ⟨hC, h3⟩
              · rw [h5]; simp
    · rw [if_neg hc]
      exact ⟨[], by simp, Or.inl ⟨by simp, Calm_nil P⟩⟩

/-- When the loop of `Read` ends normally no line terminator is left. -/
theorem drain_true_no_CRLF (P : Protocol σ ρ) (f : Nat) (c : Session σ ρ)
    (h : (Session.drain P f c).2 = some true) :
    stringsContains (Session.drain P f c).1.line CRLF = false := by
  induction f generalizing c with
  | zero =>
    rw [drain_zero] at h ⊢
    by_cases hc : stringsContains c.line CRLF = true
    · rw [if_pos hc] at h; simp at h
    · rw [if_neg hc]; simpa using hc
  | succ f ih =>
    rw [drain_succ] at h ⊢
    by_cases hc : stringsContains c.line CRLF = true
    · rw [if_pos hc] at h ⊢
      cases hr : (P.Parse c.proto c.line).2.2 with
      | none =>
        rw [hr] at h
        exact ih _ h
      | some reply =>
        rw [hr] at h
        simp only at h ⊢
        by_cases hs : P.Status reply = 221
        · rw [if_pos hs] at h; simp at h
        · rw [if_neg hs] at h ⊢
          exact ih _ h
    · rw [if_neg hc]; simpa using hc

/-- With a shrinking `Parse` the loop of `Read` ends within as many iterations as the
    buffer has bytes, and never makes the buffer longer. -/
theorem drain_terminates (P : Protocol σ ρ) (hS : Shrinks P) (f : Nat) (c : Session σ ρ)
    (hf : c.line.length ≤ f) :
    (Session.drain P f c).2 ≠ none ∧ (Session.drain P f c).1.line.length ≤ c.line.length := by
  induction f generalizing c with
  | zero =>
    have hl : c.line = [] := List.length_eq_zero.mp (Nat.le_zero.mp hf)
    rw [drain_zero, hl, stringsContains_nil_CRLF]
    simp [hl]
  | succ f ih =>
    rw [drain_succ]
    by_cases hc : stringsContains c.line CRLF = true
    · rw [if_pos hc]
      have hlt := hS c.proto c.line hc
      cases hr : (P.Parse c.proto c.line).2.2 with
      | none =>
        simp only
        have := ih { c with proto := (P.Parse c.proto c.line).1,
                            line := (P.Parse c.proto c.line).2.1,
                            trace := c.trace ++ [Event.parse c.line none] } (by simp; omega)
        exact ⟨this.1, le_trans this.2 (by simp; omega)⟩
      | some reply =>
        simp only
        by_cases hs : P.Status reply = 221
        · rw [if_pos hs]
          exact ⟨by simp, by simp; omega⟩
        · rw [if_neg hs]
          have := ih { c with proto := (P.Parse c.proto c.line).1,
                              line := (P.Parse c.proto c.line).2.1,
                              trace := c.trace ++ Event.parse c.line (some reply) ::
                                (P.Lines reply).map Event.write } (by simp; omega)
          exact ⟨this.1, le_trans this.2 (by simp; omega)⟩
    · rw [if_neg hc]
      exact ⟨by simp, le_refl _⟩

theorem Read_zero (P : Protocol σ ρ) (fuel : Nat) (r : ReadResult) (c : Session σ ρ)
    (h : r.data = []) :
    c.Read P fuel r =
      ({ c with trace := c.trace ++ [Event.read r.data r.err, Event.close] }, some false) := by
  simp [Session.Read, h]

theorem Read_err (P : Protocol σ ρ) (fuel : Nat) (r : ReadResult) (c : Session σ ρ)
    (h : r.data ≠ []) (he : r.err.isSome = true) :
    c.Read P fuel r = ({ c with trace := c.trace ++ [Event.read r.data r.err] }, some false) := by
  simp [Session.Read, h, he]

theorem Read_ok (P : Protocol σ ρ) (fuel : Nat) (r : ReadResult) (c : Session σ ρ)
    (h : r.data ≠ []) (he : r.err = none) :
    c.Read P fuel r =
      Session.drain P fuel
        { c with line := c.line ++ r.data, trace := c.trace ++ [Event.read r.data r.err] } := by
  simp [Session.Read, h, he]

/-- A trace in which one `Parse` call answered with 221 is preceded and followed by
    stretches without such a call splits at that call in one way only. -/
theorem split_unique (P : Protocol σ ρ) (pre tail pre2 post2 : List (Event ρ)) (e e2 : Event ρ)
    (h : pre ++ e :: tail = pre2 ++ e2 :: post2)
    (hpre : ∀ x ∈ pre, ¬ is221 P x) (htail : ∀ x ∈ tail, ¬ is221 P x) (h2 : is221 P e2) :
    pre2 = pre ∧ e2 = e ∧ post2 = tail := by
  induction pre generalizing pre2 with
  | nil =>
    cases pre2 with
    | nil =>
      simp only [List.nil_append, List.cons.injEq] at h
      exact ⟨rfl, h.1.symm, h.2.symm⟩
    | cons x pre2 =>
      simp only [List.nil_append, List.cons_append, List.cons.injEq] at h
      exact absurd h2 (htail e2 (by rw [h.2]; simp))
  | cons y pre ih =>
    cases pre2 with
    | nil =>
      simp only [List.nil_append, List.cons_append, List.cons.injEq] at h
      exact absurd h2 (by rw [← h.1]; exact hpre y (by simp))
    | cons x pre2 =>
      simp only [List.cons_append, List.cons.injEq] at h
      obtain ⟨h3, h4, h5⟩ := ih pre2 h.2 (fun z hz => hpre z (by simp [hz]))
      exact ⟨by rw [h.1, h3], h4, h5⟩

theorem no_split_of_none (P : Protocol σ ρ) (t pre2 post2 : List (Event ρ)) (e2 : Event ρ)
    (h : t = pre2 ++ e2 :: post2) (ht : ∀ x ∈ t, ¬ is221 P x) (h2 : is221 P e2) : False :=
  ht e2 (by rw [h]; simp) h2

theorem tail_no221 (P : Protocol σ ρ) (ls : List Str) (n : Nat) :
    ∀ x ∈ ls.map (Event.write : Str → Event ρ) ++ List.replicate n Event.close,
      ¬ is221 P x := by
  intro x hx
  rw [List.mem_append] at hx
  rcases hx with hx | hx
  · exact ((Calm_writes P ls) x hx).2
  · rw [List.mem_replicate] at hx
    rw [hx.2]; exact not_is221_close P

/-- The trace one `Read` adds after its read event. -/
theorem Read_shape (P : Protocol σ ρ) (fuel : Nat) (r : ReadResult) (c : Session σ ρ) :
    ∃ new, (c.Read P fuel r).1.trace = c.trace ++ Event.read r.data r.err :: new ∧
      (((c.Read P fuel r).2 ≠ some false ∧ Calm P new ∧ r.data ≠ [] ∧ r.err = none) ∨
       ((c.Read P fuel r).2 = some false ∧ r.data = [] ∧ new = [Event.close]) ∨
       ((c.Read P fuel r).2 = some false ∧ r.data ≠ [] ∧ r.err.isSome = true ∧ new = []) ∨
       ((c.Read P fuel r).2 = some false ∧ ∃ pre buf reply, Calm P pre ∧
          P.Status reply = 221 ∧
          new = pre ++ Event.parse buf (some reply) ::
            ((P.Lines reply).map Event.write ++ [Event.close]))) := by
  by_cases hd : r.data = []
  · rw [Read_zero P fuel r c hd]
    exact ⟨[Event.close], by simp, Or.inr (Or.inl ⟨rfl, hd, rfl⟩)⟩
  · cases he : r.err with
    | some err =>
      have he2 : r.err.isSome = true := by simp [he]
      rw [Read_err P fuel r c hd he2]
      exact ⟨[], by simp [he], Or.inr (Or.inr (Or.inl ⟨rfl, hd, by simp, rfl⟩))⟩
    | none =>
      rw [Read_ok P fuel r c hd he]
      obtain ⟨new, h1, h2⟩ := drain_shape P fuel
        { c with line := c.line ++ r.data, trace := c.trace ++ [Event.read r.data r.err] }
      refine ⟨new, ?_, ?_⟩
      · rw [h1]; simp [he]
      · rcases h2 with ⟨h2, h3⟩ | ⟨h2, h3⟩
        · exact Or.inl ⟨h2, h3, hd, rfl⟩
        · exact Or.inr (Or.inr (Or.inr ⟨h2, h3⟩))

/-- C5 (amended). On a read error `Read` returns false and leaves the buffer and the
    protocol untouched; it does not call `Close` when the failed read delivered bytes
    (`n > 0`), and calls `Close` once when it delivered none (the `n == 0` test comes
    first). -/
theorem Read_error_stops (P : Protocol σ ρ) (fuel : Nat) (r : ReadResult) (c : Session σ ρ)
    (herr : r.err.isSome = true) :
    (c.Read P fuel r).2 = some false ∧
    (c.Read P fuel r).1.line = c.line ∧ (c.Read P fuel r).1.proto = c.proto ∧
    (r.data ≠ [] → (c.Read P fuel r).1.trace = c.trace ++ [Event.read r.data r.err] ∧
      closeCount (c.Read P fuel r).1.trace = closeCount c.trace) ∧
    (r.data = [] → (c.Read P fuel r).1.trace =
        c.trace ++ [Event.read r.data r.err, Event.close] ∧
      closeCount (c.Read P fuel r).1.trace = closeCount c.trace + 1) := by
  by_cases hd : r.data = []
  · rw [Read_zero P fuel r c hd]
    refine ⟨rfl, rfl, rfl, fun h => absurd hd h, fun _ => ⟨rfl, ?_⟩⟩
    simp [closeCount_append, closeCount, List.filter_cons]
  · rw [Read_err P fuel r c hd herr]
    refine ⟨rfl, rfl, rfl, fun _ => ⟨rfl, ?_⟩, fun h => absurd h hd⟩
    simp [closeCount_append, closeCount, List.filter_cons]

/-- C9. Whenever `Read` returns true the buffer holds no line terminator; and with a
    `Parse` that shortens every buffer containing a terminator, `Read` does return
    once the iteration bound covers the bytes buffered. -/
theorem Read_true_drains_buffer (P : Protocol σ ρ) (fuel : Nat) (r : ReadResult)
    (c : Session σ ρ) :
    ((c.Read P fuel r).2 = some true →
      stringsContains (c.Read P fuel r).1.line CRLF = false) ∧
    (Shrinks P → c.line.length + r.data.length ≤ fuel →
      ∃ b, (c.Read P fuel r).2 = some b) := by
  constructor
  · intro h
    by_cases hd : r.data = []
    · rw [Read_zero P fuel r c hd] at h; simp at h
    · cases he : r.err with
      | some err =>
        rw [Read_err P fuel r c hd (by simp [he])] at h; simp at h
      | none =>
        rw [Read_ok P fuel r c hd he] at h ⊢
        exact drain_true_no_CRLF P fuel _ h
  · intro hS hf
    by_cases hd : r.data = []
    · rw [Read_zero P fuel r c hd]; exact ⟨false, rfl⟩
    · cases he : r.err with
      | some err =>
        rw [Read_err P fuel r c hd (by simp [he])]; exact ⟨false, rfl⟩
      | none =>
        rw [Read_ok P fuel r c hd he]
        have := (drain_terminates P hS fuel
          { c with line := c.line ++ r.data, trace := c.trace ++ [Event.read r.data r.err] }
          (by simpa using hf)).1
        exact Option.ne_none_iff_exists'.mp this

/-- C3. If a `Parse` call made during `Read` returns a reply with status 221 then
    `Read` returns false; after that call the trace holds exactly the writes of that
    reply followed by one `Close` (no further `Parse` call, no further write), whatever
    is left in the buffer; before it there was no `Close` and no other 221 reply; and
    the loop of `Accept` ends with the session as this `Read` left it. -/
theorem Read_221_ends_session (P : Protocol σ ρ) (fuel : Nat) (r : ReadResult)
    (c : Session σ ρ) (pre post : List (Event ρ)) (buf : Str) (reply : ρ)
    (hcall : (c.Read P fuel r).1.trace = c.trace ++ pre ++ Event.parse buf (some reply) :: post)
    (hs : P.Status reply = 221) :
    (c.Read P fuel r).2 = some false ∧
    post = (P.Lines reply).map Event.write ++ [Event.close] ∧
    Calm P pre ∧
    (∀ (monkey : Option ChaosMonkey) (reader : Nat → ReadResult) (outer i : Nat),
      reader i = r →
      acceptLoop P monkey reader fuel (outer + 1) i c = ((c.Read P fuel r).1, true)) := by
  have h221 : is221 P (Event.parse buf (some reply)) := (is221_parse_some P buf reply).2 hs
  obtain ⟨new, h1, h2⟩ := Read_shape P fuel r c
  rw [h1, List.append_assoc] at hcall
  have hnew := List.append_cancel_left hcall
  have key : (c.Read P fuel r).2 = some false ∧
      post = (P.Lines reply).map Event.write ++ [Event.close] ∧ Calm P pre := by
    rcases h2 with ⟨_, h3, _, _⟩ | ⟨_, _, h3⟩ | ⟨_, _, _, h3⟩ | ⟨h2, p, b, rp, h3, h4, h5⟩
    · exfalso
      refine no_split_of_none P _ pre post _ hnew ?_ h221
      intro x hx
      rcases List.mem_cons.mp hx with hx | hx
      · rw [hx]; exact not_is221_read P _ _
      · exact (h3 x hx).2
    · exfalso
      refine no_split_of_none P _ pre post _ hnew ?_ h221
      intro x hx
      rw [h3] at hx
      simp only [List.mem_cons, List.mem_singleton, List.not_mem_nil, or_false] at hx
      rcases hx with hx | hx
      · rw [hx]; exact not_is221_read P _ _
      · rw [hx]; exact not_is221_close P
    · exfalso
      refine no_split_of_none P _ pre post _ hnew ?_ h221
      intro x hx
      rw [h3] at hx
      simp only [List.mem_singleton] at hx
      rw [hx]; exact not_is221_read P _ _
    · rw [h5] at hnew
      have hpre : ∀ x ∈ Event.read r.data r.err :: p, ¬ is221 P x := by
        intro x hx
        rcases List.mem_cons.mp hx with hx | hx
        · rw [hx]; exact not_is221_read P _ _
        · exact (h3 x hx).2
      have hu := split_unique P (Event.read r.data r.err :: p)
        ((P.Lines rp).map Event.write ++ [Event.close]) pre post
        (Event.parse b (some rp)) (Event.parse buf (some reply))
        (by simpa using hnew) hpre (tail_no221 P (P.Lines rp) 1) h221
      obtain ⟨hu1, hu2, hu3⟩ := hu
      have hrp : reply = rp := by
        simp only [Event.parse.injEq, Option.some.injEq] at hu2
        exact hu2.2
      refine ⟨h2, by rw [hu3, hrp], ?_⟩
      rw [hu1, Calm_cons]
      exact ⟨⟨by simp, not_is221_read P _ _⟩, h3⟩
  refine ⟨key.1, key.2.1, key.2.2, ?_⟩
  intro monkey reader outer i hi
  have hres := key.1
  rw [acceptLoop, hi]
  rcases hR : c.Read P fuel r with ⟨c1, res⟩
  rw [hR] at hres
  simp only at hres
  subst hres
  rfl

theorem Calm_read (P : Protocol σ ρ) (d : Str) (err : Option Str) (t : List (Event ρ))
    (h : Calm P t) : Calm P (Event.read d err :: t) := by
  rw [Calm_cons]
  exact ⟨⟨by simp, not_is221_read P _ _⟩, h⟩

/-- The trace the loop of `Accept` adds: a calm stretch, then the events that ended
    the loop. -/
theorem acceptLoop_shape (P : Protocol σ ρ) (monkey : Option ChaosMonkey)
    (reader : Nat → ReadResult) (inner : Nat) (fuel i : Nat) (c : Session σ ρ) :
    ∃ pre tail, (acceptLoop P monkey reader inner fuel i c).1.trace = c.trace ++ pre ++ tail ∧
      Calm P pre ∧
      (((acceptLoop P monkey reader inner fuel i c).2 = false ∧ tail = []) ∨
       ((acceptLoop P monkey reader inner fuel i c).2 = true ∧ LoopEnd P monkey tail)) := by
  induction fuel generalizing i c with
  | zero => exact ⟨[], [], by simp [acceptLoop], Calm_nil P, Or.inl ⟨rfl, rfl⟩⟩
  | succ fuel ih =>
    obtain ⟨new, h1, h2⟩ := Read_shape P inner (reader i) c
    rw [acceptLoop]
    rcases hR : c.Read P inner (reader i) with ⟨c1, res⟩
    rw [hR] at h1 h2
    simp only at h1 h2
    cases res with
    | none =>
      simp only
      rcases h2 with ⟨_, h3, _, _⟩ | ⟨h3, _⟩ | ⟨h3, _⟩ | ⟨h3, _⟩
      · exact ⟨Event.read (reader i).data (reader i).err :: new, [], by simp [h1],
          Calm_read P _ _ _ h3, Or.inl ⟨trivial, rfl⟩⟩
      · simp at h3
      · simp at h3
      · simp at h3
    | some b =>
      cases b with
      | false =>
        simp only
        rcases h2 with ⟨h3, _⟩ | ⟨_, h3, h4⟩ | ⟨_, h3, h4, h5⟩ | ⟨_, p, buf, reply, h3, h4, h5⟩
        · simp at h3
        · refine ⟨[], [Event.read [] (reader i).err, Event.close], ?_, Calm_nil P,
            Or.inr ⟨trivial, Or.inr (Or.inl ⟨_, rfl⟩)⟩⟩
          rw [h1, h4, h3]; simp
        · obtain ⟨err, herr⟩ := Option.isSome_iff_exists.mp h4
          refine ⟨[], [Event.read (reader i).data (some err)], ?_, Calm_nil P,
            Or.inr ⟨trivial, Or.inl ⟨_, _, h3, rfl⟩⟩⟩
          rw [h1, h5, herr]; simp
        · refine ⟨Event.read (reader i).data (reader i).err :: p, _, ?_,
            Calm_read P _ _ _ h3, Or.inr ⟨trivial, Or.inr (Or.inr (Or.inl ⟨buf, reply, h4, rfl⟩))⟩⟩
          rw [h1, h5]; simp
      | true =>
        simp only
        have hC : Calm P (Event.read (reader i).data (reader i).err :: new) := by
          rcases h2 with ⟨_, h3, _, _⟩ | ⟨h3, _⟩ | ⟨h3, _⟩ | ⟨h3, _⟩
          · exact Calm_read P _ _ _ h3
          · simp at h3
          · simp at h3
          · simp at h3
        cases monkey with
        | none =>
          simp only
          obtain ⟨pre, tail, h5, h6, h7⟩ := ih (i + 1) c1
          refine ⟨Event.read (reader i).data (reader i).err :: new ++ pre, tail, ?_,
            (Calm_append P _ _).2 ⟨hC, h6⟩, h7⟩
          rw [h5, h1]; simp
        | some m =>
          simp only
          by_cases hD : m.Disconnect i = true
          · rw [if_pos hD]
            refine ⟨Event.read (reader i).data (reader i).err :: new,
              [Event.disconnect true, Event.close], ?_, hC,
              Or.inr ⟨rfl, Or.inr (Or.inr (Or.inr ⟨⟨m, rfl⟩, rfl⟩))⟩⟩
            simp [h1, hD]
          · rw [if_neg hD]
            obtain ⟨pre, tail, h5, h6, h7⟩ := ih (i + 1)
              { c1 with trace := c1.trace ++ [Event.disconnect (m.Disconnect i)] }
            have hCd : Calm P [(Event.disconnect (m.Disconnect i) : Event ρ)] := by
              rw [Calm_cons]
              exact ⟨⟨by simp, not_is221_disconnect P _⟩, Calm_nil P⟩
            refine ⟨Event.read (reader i).data (reader i).err :: new ++
                ([Event.disconnect (m.Disconnect i)] ++ pre), tail, ?_,
              (Calm_append P _ _).2 ⟨hC, (Calm_append P _ _).2 ⟨hCd, h6⟩⟩, h7⟩
            rw [h5]; simp [h1]

/-- With a shrinking `Parse`, reads of at most 1024 bytes and a read `k` that delivers
    no bytes or fails, the loop of `Accept` ends within `k + 1` iterations. -/
theorem acceptLoop_terminates (P : Protocol σ ρ) (hS : Shrinks P) (monkey : Option ChaosMonkey)
    (reader : Nat → ReadResult) (inner k : Nat)
    (hstop : (reader k).data = [] ∨ (reader k).err.isSome = true)
    (hlen : ∀ i, i ≤ k → (reader i).data.length ≤ 1024) (hin : 1024 * (k + 1) ≤ inner)
    (fuel i : Nat) (c : Session σ ρ) (hi : i ≤ k) (hk : k < i + fuel)
    (hc : c.line.length ≤ 1024 * i) :
    (acceptLoop P monkey reader inner fuel i c).2 = true := by
  induction fuel generalizing i c with
  | zero => omega
  | succ fuel ih =>
    rw [acceptLoop]
    by_cases hd : (reader i).data = []
    · rw [Read_zero P inner (reader i) c hd]
    · cases he : (reader i).err with
      | some err => rw [Read_err P inner (reader i) c hd (by simp [he])]
      | none =>
        have hik : i < k := by
          rcases Nat.lt_or_ge i k with h | h
          · exact h
          · have : i = k := le_antisymm hi h
            subst this
            rcases hstop with h1 | h1
            · exact absurd h1 hd
            · simp [he] at h1
        rw [Read_ok P inner (reader i) c hd he]
        have hl := hlen i hi
        have ht := drain_terminates P hS inner
          { c with line := c.line ++ (reader i).data,
                   trace := c.trace ++ [Event.read (reader i).data (reader i).err] }
          (by simp only [List.length_append]; omega)
        rcases hR : Session.drain P inner
          { c with line := c.line ++ (reader i).data,
                   trace := c.trace ++ [Event.read (reader i).data (reader i).err] }
          with ⟨c1, res⟩
        rw [hR] at ht
        simp only [List.length_append] at ht
        cases res with
        | none => exact absurd rfl ht.1
        | some b =>
          cases b with
          | false => rfl
          | true =>
            simp only
            cases monkey with
            | none => exact ih (i + 1) c1 (by omega) (by omega) (by omega)
            | some m =>
              simp only
              by_cases hD : m.Disconnect i = true
              · rw [if_pos hD]
              · rw [if_neg hD]
                exact ih (i + 1) _ (by omega) (by omega) (by simp only; omega)

theorem Accept_of_true (P : Protocol σ ρ) (remoteAddress hostname : Str)
    (monkey : Option ChaosMonkey) (reader : Nat → ReadResult) (inner outer : Nat)
    (c1 : Session σ ρ)
    (h : acceptLoop P monkey reader inner outer 0
      ((newSession P remoteAddress hostname monkey).1.Write P
        (newSession P remoteAddress hostname monkey).2) = (c1, true)) :
    Accept P remoteAddress hostname monkey reader inner outer =
      ({ c1 with trace := c1.trace ++ [Event.close] }, true) := by
  unfold Accept
  simp only [h]

theorem Accept_of_false (P : Protocol σ ρ) (remoteAddress hostname : Str)
    (monkey : Option ChaosMonkey) (reader : Nat → ReadResult) (inner outer : Nat)
    (c1 : Session σ ρ)
    (h : acceptLoop P monkey reader inner outer 0
      ((newSession P remoteAddress hostname monkey).1.Write P
        (newSession P remoteAddress hostname monkey).2) = (c1, false)) :
    Accept P remoteAddress hostname monkey reader inner outer = (c1, false) := by
  unfold Accept
  simp only [h]

/-- C2 (amended). A run of `Accept` that returns calls `Close` once when the loop
    ended on a failed read that delivered bytes, and twice when it ended on a read
    of no bytes, on a reply with status 221, or on a disconnect of the fault
    injector (the `Close` at that exit, then the deferred one); the last event is
    always the deferred `Close`, and no `Close` comes before the exit. `Accept` does
    return when `Parse` shortens its buffer, reads deliver at most 1024 bytes and
    some read within the bound delivers no bytes or fails. -/
theorem Accept_close_calls (P : Protocol σ ρ) (remoteAddress hostname : Str)
    (monkey : Option ChaosMonkey) (reader : Nat → ReadResult) (inner outer : Nat) :
    ((Accept P remoteAddress hostname monkey reader inner outer).2 = true →
      ∃ pre, Calm P pre ∧
        ((∃ data err, data ≠ [] ∧
            (Accept P remoteAddress hostname monkey reader inner outer).1.trace =
              pre ++ [Event.read data (some err), Event.close] ∧
            closeCount (Accept P remoteAddress hostname monkey reader inner outer).1.trace = 1) ∨
         (∃ err,
            (Accept P remoteAddress hostname monkey reader inner outer).1.trace =
              pre ++ [Event.read [] err, Event.close, Event.close] ∧
            closeCount (Accept P remoteAddress hostname monkey reader inner outer).1.trace = 2) ∨
         (∃ buf reply, P.Status reply = 221 ∧
            (Accept P remoteAddress hostname monkey reader inner outer).1.trace =
              pre ++ Event.parse buf (some reply) ::
                ((P.Lines reply).map Event.write ++ [Event.close, Event.close]) ∧
            closeCount (Accept P remoteAddress hostname monkey reader inner outer).1.trace = 2) ∨
         ((∃ m, monkey = some m) ∧
            (Accept P remoteAddress hostname monkey reader inner outer).1.trace =
              pre ++ [Event.disconnect true, Event.close, Event.close] ∧
            closeCount (Accept P remoteAddress hostname monkey reader inner outer).1.trace = 2))) ∧
    (Shrinks P → ∀ k, k < outer →
      ((reader k).data = [] ∨ (reader k).err.isSome = true) →
      (∀ i, i ≤ k → (reader i).data.length ≤ 1024) → 1024 * (k + 1) ≤ inner →
      (Accept P remoteAddress hostname monkey reader inner outer).2 = true) := by
  obtain ⟨pre, tail, h1, h2, h3⟩ := acceptLoop_shape P monkey reader inner outer 0
    ((newSession P remoteAddress hostname monkey).1.Write P
      (newSession P remoteAddress hostname monkey).2)
  constructor
  · intro hfin
    rcases hL : acceptLoop P monkey reader inner outer 0
      ((newSession P remoteAddress hostname monkey).1.Write P
        (newSession P remoteAddress hostname monkey).2) with ⟨c1, fin⟩
    rw [hL] at h1 h3
    simp only at h1 h3
    cases fin with
    | false =>
      rw [Accept_of_false P remoteAddress hostname monkey reader inner outer c1 hL] at hfin
      simp at hfin
    | true =>
      rw [Accept_of_true P remoteAddress hostname monkey reader inner outer c1 hL]
      simp only
      rw [Write_eq] at h1
      simp only [newSession, List.nil_append] at h1
      have hC : Calm P ((P.Lines (P.Start (P.NewProtocol hostname)).2).map Event.write ++ pre) :=
        (Calm_append P _ _).2 ⟨Calm_writes P _, h2⟩
      have h0 := closeCount_of_Calm P _ hC
      refine ⟨_, hC, ?_⟩
      rcases h3 with ⟨h3, _⟩ | ⟨_, h3⟩
      · simp at h3
      · rcases h3 with ⟨data, err, hd, ht⟩ | ⟨err, ht⟩ | ⟨buf, reply, hs, ht⟩ | ⟨hm, ht⟩
        · refine Or.inl ⟨data, err, hd, ?_, ?_⟩
          · rw [h1, ht]; simp
          · rw [h1, ht, closeCount_append, closeCount_append, h0]
            simp [closeCount, List.filter_cons]
        · refine Or.inr (Or.inl ⟨err, ?_, ?_⟩)
          · rw [h1, ht]; simp
          · rw [h1, ht, closeCount_append, closeCount_append, h0]
            simp [closeCount, List.filter_cons]
        · refine Or.inr (Or.inr (Or.inl ⟨buf, reply, hs, ?_, ?_⟩))
          · rw [h1, ht]; simp
          · have hw := closeCount_map_write (ρ := ρ) (P.Lines reply)
            rw [h1, ht, closeCount_append, closeCount_append, h0,
              ← List.singleton_append, closeCount_append, closeCount_append, hw]
            simp [closeCount, List.filter_cons]
        · refine Or.inr (Or.inr (Or.inr ⟨hm, ?_, ?_⟩))
          · rw [h1, ht]; simp
          · rw [h1, ht, closeCount_append, closeCount_append, h0]
            simp [closeCount, List.filter_cons]
  · intro hS k hk hstop hlen hin
    have ht := acceptLoop_terminates P hS monkey reader inner k hstop hlen hin outer 0
      ((newSession P remoteAddress hostname monkey).1.Write P
        (newSession P remoteAddress hostname monkey).2) (Nat.zero_le k) (by omega)
      (by rw [Write_eq]; simp [newSession])
    rcases hL : acceptLoop P monkey reader inner outer 0
      ((newSession P remoteAddress hostname monkey).1.Write P
        (newSession P remoteAddress hostname monkey).2) with ⟨c1, fin⟩
    rw [hL] at ht
    simp only at ht
    subst ht
    rw [Accept_of_true P remoteAddress hostname monkey reader inner outer c1 hL]

/-- C4 (amended). When the fault injector answers true the first time it is asked,
    `Accept` makes exactly one `Read`: the bytes of that read are buffered and
    processed as in any `Read` (its complete lines go to `Parse`, the replies are
    written); if that `Read` returns true the fault injector is asked, the connection
    is closed by the loop and again by the deferred `Close`, and nothing is parsed or
    written after the poll; no later read is made, so later input has no effect. -/
theorem Accept_disconnect_first_poll (P : Protocol σ ρ) (remoteAddress hostname : Str)
    (m : ChaosMonkey) (reader : Nat → ReadResult) (inner outer : Nat)
    (hpoll : m.Disconnect 0 = true) :
    Accept P remoteAddress hostname (some m) reader inner (outer + 1) =
      (match ((newSession P remoteAddress hostname (some m)).1.Write P
          (newSession P remoteAddress hostname (some m)).2).Read P inner (reader 0) with
      | (c1, some true) =>
        ({ c1 with trace := c1.trace ++
            [Event.disconnect true, Event.close, Event.close] }, true)
      | (c1, some false) => ({ c1 with trace := c1.trace ++ [Event.close] }, true)
      | (c1, none) => (c1, false)) ∧
    (∀ reader2 : Nat → ReadResult, reader2 0 = reader 0 → ∀ outer2,
      Accept P remoteAddress hostname (some m) reader2 inner (outer2 + 1) =
        Accept P remoteAddress hostname (some m) reader inner (outer + 1)) := by
  have main : ∀ (rd : Nat → ReadResult) (o : Nat),
      Accept P remoteAddress hostname (some m) rd inner (o + 1) =
      (match ((newSession P remoteAddress hostname (some m)).1.Write P
          (newSession P remoteAddress hostname (some m)).2).Read P inner (rd 0) with
      | (c1, some true) =>
        ({ c1 with trace := c1.trace ++
            [Event.disconnect true, Event.close, Event.close] }, true)
      | (c1, some false) => ({ c1 with trace := c1.trace ++ [Event.close] }, true)
      | (c1, none) => (c1, false)) := by
    intro rd o
    unfold Accept
    simp only
    rw [acceptLoop]
    rcases ((newSession P remoteAddress hostname (some m)).1.Write P
          (newSession P remoteAddress hostname (some m)).2).Read P inner (rd 0) with ⟨c1, res⟩
    cases res with
    | none => rfl
    | some b =>
      cases b with
      | false => rfl
      | true => simp [hpoll]
  refine ⟨main reader outer, ?_⟩
  intro reader2 h2 outer2
  rw [main reader2 outer2, main reader outer, h2]

/-! ### Line terminators -/

theorem CRLF_isPrefixOf_single (c : Char) : CRLF.isPrefixOf [c] = false := by
  simp [CRLF, List.isPrefixOf]

theorem CRLF_isPrefixOf_cons2 (c d : Char) (t : Str) :
    CRLF.isPrefixOf (c :: d :: t) = CRLF.isPrefixOf [c, d] := by
  simp [CRLF, List.isPrefixOf]

theorem cutCRLF_single (c : Char) : cutCRLF [c] = none := by
  simp [cutCRLF, CRLF_isPrefixOf_single]

theorem stringsContains_single (c : Char) : stringsContains [c] CRLF = false := by
  rw [stringsContains, CRLF_isPrefixOf_single, stringsContains_nil_CRLF]
  rfl

/-- The loop condition of `Read` holds exactly when the buffer can be cut at a
    first line terminator. -/
theorem stringsContains_iff_cut (buf : Str) :
    stringsContains buf CRLF = true ↔ ∃ l rest, cutCRLF buf = some (l, rest) := by
  induction buf with
  | nil => simp [stringsContains_nil_CRLF, cutCRLF]
  | cons c t ih =>
    rw [stringsContains, cutCRLF]
    by_cases hp : CRLF.isPrefixOf (c :: t) = true
    · simp [hp]
    · simp only [hp, Bool.false_or, Bool.false_eq_true, if_false]
      rw [ih]
      constructor
      · rintro ⟨l, rest, h⟩
        exact ⟨c :: l, rest, by simp [h]⟩
      · intro ⟨l, rest, h⟩
        cases hc : cutCRLF t with
        | none => simp [hc] at h
        | some p => exact ⟨p.1, p.2, rfl⟩

theorem cutCRLF_append (buf x l rest : Str) (h : cutCRLF buf = some (l, rest)) :
    cutCRLF (buf ++ x) = some (l, rest ++ x) := by
  induction buf generalizing l with
  | nil => simp [cutCRLF] at h
  | cons c t ih =>
    cases t with
    | nil => simp [cutCRLF_single] at h
    | cons d t =>
      rw [cutCRLF] at h
      rw [List.cons_append, List.cons_append, cutCRLF, CRLF_isPrefixOf_cons2]
      rw [CRLF_isPrefixOf_cons2] at h
      by_cases hp : CRLF.isPrefixOf [c, d] = true
      · simp only [hp, if_true, Option.some.injEq, Prod.mk.injEq] at h ⊢
        obtain ⟨h1, h2⟩ := h
        subst h1; subst h2
        simp
      · simp only [hp, Bool.false_eq_true, if_false] at h ⊢
        cases hc : cutCRLF (d :: t) with
        | none => simp [hc] at h
        | some p =>
          rw [hc] at h
          simp only [Option.map_some', Option.some.injEq, Prod.mk.injEq] at h
          have := ih p.1 (by rw [hc, ← h.2])
          rw [List.cons_append] at this
          rw [this]
          simp [← h.1, ← h.2]

theorem cutCRLF_length (buf l rest : Str) (h : cutCRLF buf = some (l, rest)) :
    rest.length < buf.length := by
  induction buf generalizing l with
  | nil => simp [cutCRLF] at h
  | cons c t ih =>
    rw [cutCRLF] at h
    by_cases hp : CRLF.isPrefixOf (c :: t) = true
    · simp only [hp, if_true, Option.some.injEq, Prod.mk.injEq] at h
      rw [← h.2]
      simp only [List.length_drop, List.length_cons]
      omega
    · simp only [hp, Bool.false_eq_true, if_false] at h
      cases hc : cutCRLF t with
      | none => simp [hc] at h
      | some p =>
        rw [hc] at h
        simp only [Option.map_some', Option.some.injEq, Prod.mk.injEq] at h
        have := ih p.1 (by rw [hc, ← h.2])
        simp only [List.length_cons]
        omega

theorem firstLine_of_cut (buf l rest : Str) (h : cutCRLF buf = some (l, rest)) :
    firstLine buf = l := by
  simp [firstLine, h]

/-- A `Parse` that consumes one line per call shortens its buffer. -/
theorem Shrinks_of_FramedBy (P : Protocol σ ρ) (step : σ → Str → σ × Option ρ)
    (hF : FramedBy P step) : Shrinks P := by
  intro s buf hc
  obtain ⟨l, rest, h⟩ := (stringsContains_iff_cut buf).1 hc
  rw [hF s buf l rest h]
  exact cutCRLF_length buf l rest h

/-! ### The visible trace -/

theorem viewT_append (a b : List (Event ρ)) : viewT (a ++ b) = viewT a ++ viewT b := by
  simp [viewT, List.filterMap_append]

theorem viewT_writes (ls : List Str) :
    viewT (ls.map (Event.write : Str → Event ρ)) = ls.map Event.write := by
  induction ls with
  | nil => rfl
  | cons l ls ih =>
    simp only [viewT, List.map_cons, List.filterMap_cons, view] at ih ⊢
    rw [ih]

theorem viewT_read (d : Str) (err : Option Str) :
    viewT [(Event.read d err : Event ρ)] = [] := rfl

theorem viewT_parse (buf : Str) (r : Option ρ) :
    viewT [Event.parse buf r] = [Event.parse (firstLine buf) r] := rfl

theorem viewT_close : viewT [(Event.close : Event ρ)] = [Event.close] := rfl

theorem viewT_cons_parse (buf : Str) (r : Option ρ) (t : List (Event ρ)) :
    viewT (Event.parse buf r :: t) = Event.parse (firstLine buf) r :: viewT t := rfl

theorem parsed_viewT (t : List (Event ρ)) : parsed (viewT t) = (parsed t).map firstLine := by
  induction t with
  | nil => rfl
  | cons e t ih =>
    cases e <;> simp_all [parsed, viewT, view, List.filterMap_cons]

theorem writes_viewT (t : List (Event ρ)) : writes (viewT t) = writes t := by
  induction t with
  | nil => rfl
  | cons e t ih =>
    cases e <;> simp_all [writes, viewT, view, List.filterMap_cons]

theorem closeCount_viewT (t : List (Event ρ)) : closeCount (viewT t) = closeCount t := by
  induction t with
  | nil => rfl
  | cons e t ih =>
    cases e <;> simp_all [closeCount, viewT, view, List.filterMap_cons, List.filter_cons]

/-! ### Reading a byte string in one piece or in chunks -/

theorem drain_of_not_contains (P : Protocol σ ρ) (f : Nat) (c : Session σ ρ)
    (h : stringsContains c.line CRLF = false) : Session.drain P f c = (c, some true) := by
  cases f with
  | zero => rw [drain_zero]; simp [h]
  | succ f => rw [drain_succ]; simp [h]

/-- The loop of `Read` treats alike sessions alike. -/
theorem drain_sim (P : Protocol σ ρ) (f : Nat) (c d : Session σ ρ) (h : Alike d c) :
    (Session.drain P f d).2 = (Session.drain P f c).2 ∧
      Alike (Session.drain P f d).1 (Session.drain P f c).1 := by
  induction f generalizing c d with
  | zero =>
    obtain ⟨hp, hl, hv⟩ := h
    rw [drain_zero, drain_zero, hl]
    by_cases hc : stringsContains c.line CRLF = true
    · simp only [hc, if_true]; exact ⟨trivial, hp, hl, hv⟩
    · simp only [hc, Bool.false_eq_true, if_false]; exact ⟨trivial, hp, hl, hv⟩
  | succ f ih =>
    obtain ⟨hp, hl, hv⟩ := h
    rw [drain_succ, drain_succ, hl, hp]
    by_cases hc : stringsContains c.line CRLF = true
    · rw [if_pos hc, if_pos hc]
      cases hr : (P.Parse c.proto c.line).2.2 with
      | none =>
        simp only
        exact ih _ _ ⟨rfl, rfl, by simp only [viewT_append, hv]⟩
      | some reply =>
        simp only
        by_cases hs : P.Status reply = 221
        · rw [if_pos hs, if_pos hs]
          exact ⟨rfl, rfl, rfl, by simp only [viewT_append, hv]⟩
        · rw [if_neg hs, if_neg hs]
          exact ih _ _ ⟨rfl, rfl, by simp only [viewT_append, hv]⟩
    · rw [if_neg hc, if_neg hc]
      exact ⟨rfl, hp, hl, hv⟩

/-- Once the loop of `Read` has ended, a larger bound changes nothing. -/
theorem drain_mono (P : Protocol σ ρ) (f k : Nat) (c : Session σ ρ)
    (h : (Session.drain P f c).2 ≠ none) :
    Session.drain P (f + k) c = Session.drain P f c := by
  induction f generalizing c with
  | zero =>
    rw [drain_zero] at h
    by_cases hc : stringsContains c.line CRLF = true
    · simp [hc] at h
    · have hc2 : stringsContains c.line CRLF = false := by simpa using hc
      rw [drain_of_not_contains P _ c hc2, drain_of_not_contains P _ c hc2]
  | succ f ih =>
    rw [show f + 1 + k = (f + k) + 1 by omega, drain_succ, drain_succ]
    rw [drain_succ] at h
    by_cases hc : stringsContains c.line CRLF = true
    · rw [if_pos hc] at h ⊢
      rw [if_pos hc]
      cases hr : (P.Parse c.proto c.line).2.2 with
      | none =>
        rw [hr] at h
        exact ih _ h
      | some reply =>
        rw [hr] at h
        simp only at h ⊢
        by_cases hs : P.Status reply = 221
        · rw [if_pos hs, if_pos hs]
        · rw [if_neg hs] at h
          rw [if_neg hs, if_neg hs]
          exact ih _ h
    · rw [if_neg hc, if_neg hc]

theorem Parse_of_cut (P : Protocol σ ρ) (step : σ → Str → σ × Option ρ)
    (hF : FramedBy P step) (s : σ) (buf x l rest : Str) (h : cutCRLF buf = some (l, rest)) :
    P.Parse s buf = ((step s l).1, rest, (step s l).2) ∧
    P.Parse s (buf ++ x) = ((step s l).1, rest ++ x, (step s l).2) ∧
    stringsContains (buf ++ x) CRLF = true ∧
    firstLine (buf ++ x) = firstLine buf :=
  ⟨hF s buf l rest h, hF s (buf ++ x) l (rest ++ x) (cutCRLF_append buf x l rest h),
    (stringsContains_iff_cut _).2 ⟨l, rest ++ x, cutCRLF_append buf x l rest h⟩,
    by rw [firstLine_of_cut _ _ _ h, firstLine_of_cut _ _ _ (cutCRLF_append buf x l rest h)]⟩

/-- If the loop of `Read` stops at a 221 reply, it stops at the same reply when more
    bytes follow in the buffer, and those bytes stay in the buffer. -/
theorem drain_append_false (P : Protocol σ ρ) (step : σ → Str → σ × Option ρ)
    (hF : FramedBy P step) (x : Str) (f : Nat) (c d : Session σ ρ)
    (hp : d.proto = c.proto) (hl : d.line = c.line ++ x) (hv : viewT d.trace = viewT c.trace)
    (h : (Session.drain P f c).2 = some false) :
    (Session.drain P f d).2 = some false ∧
    (Session.drain P f d).1.proto = (Session.drain P f c).1.proto ∧
    (Session.drain P f d).1.line = (Session.drain P f c).1.line ++ x ∧
    viewT (Session.drain P f d).1.trace = viewT (Session.drain P f c).1.trace := by
  induction f generalizing c d with
  | zero =>
    rw [drain_zero] at h
    by_cases hc : stringsContains c.line CRLF = true
    · simp [hc] at h
    · simp [hc] at h
  | succ f ih =>
    rw [drain_succ P f c] at h ⊢
    by_cases hc : stringsContains c.line CRLF = true
    · obtain ⟨l, rest, hcut⟩ := (stringsContains_iff_cut c.line).1 hc
      obtain ⟨h1, h2, h3, h4⟩ := Parse_of_cut P step hF c.proto c.line x l rest hcut
      rw [drain_succ P f d, hl, hp, if_pos h3, h2]
      rw [if_pos hc, h1] at h ⊢
      simp only at h ⊢
      cases hr : (step c.proto l).2 with
      | none =>
        rw [hr] at h
        simp only at h ⊢
        exact ih _ _ rfl rfl (by simp only [viewT_append, hv, viewT_parse, h4]) h
      | some reply =>
        rw [hr] at h
        simp only at h ⊢
        by_cases hs : P.Status reply = 221
        · rw [if_pos hs, if_pos hs]
          refine ⟨rfl, rfl, rfl, ?_⟩
          simp only [viewT_append, viewT_cons_parse, hv, h4]
        · rw [if_neg hs] at h
          rw [if_neg hs, if_neg hs]
          refine ih _ _ rfl rfl ?_ h
          simp only [viewT_append, viewT_cons_parse, hv, h4]
    · rw [if_neg hc] at h
      simp at h

/-- If the loop of `Read` ends normally, then with more bytes `x` following in the
    buffer it does the same work and goes on as from the buffer it left followed by
    `x`. -/
theorem drain_append_true (P : Protocol σ ρ) (step : σ → Str → σ × Option ρ)
    (hF : FramedBy P step) (x : Str) (g : Nat) (f : Nat) (c d e : Session σ ρ)
    (h : (Session.drain P f c).2 = some true)
    (hep : e.proto = (Session.drain P f c).1.proto)
    (hel : e.line = (Session.drain P f c).1.line ++ x)
    (hev : viewT e.trace = viewT (Session.drain P f c).1.trace)
    (hp : d.proto = c.proto) (hl : d.line = c.line ++ x) (hv : viewT d.trace = viewT c.trace)
    (hterm : (Session.drain P g e).2 ≠ none) :
    (Session.drain P (f + g) d).2 = (Session.drain P g e).2 ∧
      Alike (Session.drain P (f + g) d).1 (Session.drain P g e).1 := by
  induction f generalizing c d with
  | zero =>
    rw [drain_zero] at h hep hel hev
    by_cases hc : stringsContains c.line CRLF = true
    · simp [hc] at h
    · simp only [hc, Bool.false_eq_true, if_false] at hep hel hev
      rw [Nat.zero_add]
      exact drain_sim P g e d ⟨by rw [hp, hep], by rw [hl, hel], by rw [hv, hev]⟩
  | succ f ih =>
    by_cases hc : stringsContains c.line CRLF = true
    · obtain ⟨l, rest, hcut⟩ := (stringsContains_iff_cut c.line).1 hc
      obtain ⟨h1, h2, h3, h4⟩ := Parse_of_cut P step hF c.proto c.line x l rest hcut
      rw [show f + 1 + g = (f + g) + 1 by omega, drain_succ P (f + g) d, hl, hp, if_pos h3, h2]
      rw [drain_succ P f c, if_pos hc, h1] at h hep hel hev
      simp only at h hep hel hev ⊢
      cases hr : (step c.proto l).2 with
      | none =>
        rw [hr] at h hep hel hev
        simp only at h hep hel hev ⊢
        exact ih _ _ h hep hel hev rfl rfl (by simp only [viewT_append, hv, viewT_parse, h4])
      | some reply =>
        rw [hr] at h hep hel hev
        simp only at h hep hel hev ⊢
        by_cases hs : P.Status reply = 221
        · rw [if_pos hs] at h
          simp at h
        · rw [if_neg hs] at h hep hel hev
          rw [if_neg hs]
          refine ih _ _ h hep hel hev rfl rfl ?_
          simp only [viewT_append, viewT_cons_parse, hv, h4]
    · have hc2 : stringsContains c.line CRLF = false := by simpa using hc
      rw [drain_of_not_contains P _ c hc2] at hep hel hev
      have hs := drain_sim P (g + (f + 1)) e d ⟨by rw [hp, hep], by rw [hl, hel], by rw [hv, hev]⟩
      rw [drain_mono P g (f + 1) e hterm] at hs
      rw [show f + 1 + g = g + (f + 1) by omega]
      exact hs

theorem readChunks_single (P : Protocol σ ρ) (fuel : Nat) (x : Str) (c : Session σ ρ) :
    readChunks P fuel [x] c = ((c.Read P fuel ⟨x, none⟩).1, (c.Read P fuel ⟨x, none⟩).2, []) := by
  rw [readChunks]
  rcases c.Read P fuel ⟨x, none⟩ with ⟨c1, res⟩
  cases res with
  | none => rfl
  | some b => cases b <;> rfl

theorem readChunks_cons_true (P : Protocol σ ρ) (fuel : Nat) (x : Str) (xs : List Str)
    (c c1 : Session σ ρ) (h : c.Read P fuel ⟨x, none⟩ = (c1, some true)) :
    readChunks P fuel (x :: xs) c = readChunks P fuel xs c1 := by
  rw [readChunks, h]

theorem readChunks_cons_false (P : Protocol σ ρ) (fuel : Nat) (x : Str) (xs : List Str)
    (c c1 : Session σ ρ) (h : c.Read P fuel ⟨x, none⟩ = (c1, some false)) :
    readChunks P fuel (x :: xs) c = (c1, some false, xs) := by
  rw [readChunks, h]

/-- Reading chunk by chunk against reading the concatenation in one piece. -/
theorem readChunks_vs_whole (P : Protocol σ ρ) (step : σ → Str → σ × Option ρ)
    (hF : FramedBy P step) (fuel : Nat) (chunks : List Str) (c : Session σ ρ)
    (hne : chunks ≠ []) (hchunks : ∀ x ∈ chunks, x ≠ [])
    (hfuel : c.line.length + chunks.flatten.length ≤ fuel) :
    (c.Read P fuel ⟨chunks.flatten, none⟩).2 ≠ none ∧
    (readChunks P fuel chunks c).2.1 = (c.Read P fuel ⟨chunks.flatten, none⟩).2 ∧
    (readChunks P fuel chunks c).1.proto = (c.Read P fuel ⟨chunks.flatten, none⟩).1.proto ∧
    viewT (readChunks P fuel chunks c).1.trace =
      viewT (c.Read P fuel ⟨chunks.flatten, none⟩).1.trace ∧
    (c.Read P fuel ⟨chunks.flatten, none⟩).1.line =
      (readChunks P fuel chunks c).1.line ++ (readChunks P fuel chunks c).2.2.flatten ∧
    ((c.Read P fuel ⟨chunks.flatten, none⟩).2 = some true →
      (readChunks P fuel chunks c).2.2 = []) := by
  have hS := Shrinks_of_FramedBy P step hF
  induction chunks generalizing c with
  | nil => exact absurd rfl hne
  | cons x xs ih =>
    have hx : x ≠ [] := hchunks x (by simp)
    cases xs with
    | nil =>
      rw [readChunks_single]
      simp only [List.flatten_cons, List.flatten_nil, List.append_nil] at hfuel ⊢
      refine ⟨?_, trivial, trivial, trivial, trivial, fun _ => trivial⟩
      rw [Read_ok P fuel ⟨x, none⟩ c hx rfl]
      exact (drain_terminates P hS fuel _ (by simpa using hfuel)).1
    | cons y ys =>
      have hy : y ≠ [] := hchunks y (by simp)
      have hs' : (y :: ys).flatten ≠ [] := by
        rw [List.flatten_cons]
        intro h
        exact hy (List.append_eq_nil.mp h).1
      have hs : (x :: y :: ys).flatten ≠ [] := by
        rw [List.flatten_cons]
        intro h
        exact hx (List.append_eq_nil.mp h).1
      have hlen : (x :: y :: ys).flatten.length = x.length + (y :: ys).flatten.length := by
        rw [List.flatten_cons, List.length_append]
      rw [hlen] at hfuel
      rw [Read_ok P fuel ⟨(x :: y :: ys).flatten, none⟩ c hs rfl]
      have hRx := Read_ok P fuel ⟨x, none⟩ c hx rfl
      simp only at hRx ⊢
      have ht := drain_terminates P hS fuel
        { c with line := c.line ++ x, trace := c.trace ++ [Event.read x none] }
        (by simp only [List.length_append]; omega)
      have htw := (drain_terminates P hS fuel
        { c with line := c.line ++ (x :: y :: ys).flatten,
                 trace := c.trace ++ [Event.read (x :: y :: ys).flatten none] }
        (by simp only [List.length_append, hlen]; omega)).1
      have hlw : c.line ++ (x :: y :: ys).flatten = (c.line ++ x) ++ (y :: ys).flatten := by
        rw [List.flatten_cons, List.append_assoc]
      have hvw : viewT (c.trace ++ [Event.read (x :: y :: ys).flatten none]) =
          viewT (c.trace ++ [Event.read x none]) := by
        simp only [viewT_append, viewT_read]
      rcases hD : Session.drain P fuel
        { c with line := c.line ++ x, trace := c.trace ++ [Event.read x none] } with ⟨c1, res⟩
      rw [hD] at ht hRx
      simp only [List.length_append] at ht
      cases res with
      | none => exact absurd rfl ht.1
      | some b =>
        cases b with
        | false =>
          rw [readChunks_cons_false P fuel x (y :: ys) c c1 hRx]
          have := drain_append_false P step hF (y :: ys).flatten fuel
            { c with line := c.line ++ x, trace := c.trace ++ [Event.read x none] }
            { c with line := c.line ++ (x :: y :: ys).flatten,
                     trace := c.trace ++ [Event.read (x :: y :: ys).flatten none] }
            rfl hlw hvw (by rw [hD])
          rw [hD] at this
          obtain ⟨h1, h2, h3, h4⟩ := this
          refine ⟨htw, h1.symm, h2.symm, h4.symm, h3, ?_⟩
          intro h
          rw [h1] at h
          simp at h
        | true =>
          rw [readChunks_cons_true P fuel x (y :: ys) c c1 hRx]
          obtain ⟨i1, i2, i3, i4, i5, i6⟩ := ih c1 (by simp)
            (fun z hz => hchunks z (List.mem_cons_of_mem x hz)) (by omega)
          rw [Read_ok P fuel ⟨(y :: ys).flatten, none⟩ c1 hs' rfl] at i1 i2 i3 i4 i5 i6
          simp only at i1 i2 i3 i4 i5 i6
          have := drain_append_true P step hF (y :: ys).flatten fuel fuel
            { c with line := c.line ++ x, trace := c.trace ++ [Event.read x none] }
            { c with line := c.line ++ (x :: y :: ys).flatten,
                     trace := c.trace ++ [Event.read (x :: y :: ys).flatten none] }
            { c1 with line := c1.line ++ (y :: ys).flatten,
                      trace := c1.trace ++ [Event.read (y :: ys).flatten none] }
            (by rw [hD]) (by rw [hD]) (by rw [hD])
            (by rw [hD]; simp only [viewT_append, viewT_read, List.append_nil])
            rfl hlw hvw i1
          rw [drain_mono P fuel fuel _ htw] at this
          obtain ⟨h1, h2, h3, h4⟩ := this
          refine ⟨htw, by rw [i2, h1], by rw [i3, h2], by rw [i4, h4], by rw [h3, i5], ?_⟩
          intro h
          exact i6 (by rw [← h1]; exact h)

theorem demoProto_framed : FramedBy demoProto demoStep := by
  intro s buf l rest h
  simp [demoProto, h]

/-- C1 (amended). With a `Parse` that consumes one terminated line per call and
    error-free non-empty reads, calling `Read` once per chunk for as long as it
    returns true hands the same lines to the protocol, writes the same replies in the
    same order, closes as often, ends in the same protocol state and returns the
    same result as one `Read` of the concatenation, which does return. The buffer
    left by the single `Read` is the buffer left by the chunked reads followed by
    the chunks that were not read; the two buffers are equal when no reply had
    status 221 (the result is true), and then every chunk was read. -/
theorem framing_read_boundary_independent (P : Protocol σ ρ)
    (step : σ → Str → σ × Option ρ) (hF : FramedBy P step) (fuel : Nat)
    (chunks : List Str) (c : Session σ ρ)
    (hne : chunks ≠ []) (hchunks : ∀ x ∈ chunks, x ≠ [])
    (hfuel : c.line.length + chunks.flatten.length ≤ fuel) :
    (∃ b, (c.Read P fuel ⟨chunks.flatten, none⟩).2 = some b) ∧
    (readChunks P fuel chunks c).2.1 = (c.Read P fuel ⟨chunks.flatten, none⟩).2 ∧
    (readChunks P fuel chunks c).1.proto = (c.Read P fuel ⟨chunks.flatten, none⟩).1.proto ∧
    (parsed (readChunks P fuel chunks c).1.trace).map firstLine =
      (parsed (c.Read P fuel ⟨chunks.flatten, none⟩).1.trace).map firstLine ∧
    writes (readChunks P fuel chunks c).1.trace =
      writes (c.Read P fuel ⟨chunks.flatten, none⟩).1.trace ∧
    viewT (readChunks P fuel chunks c).1.trace =
      viewT (c.Read P fuel ⟨chunks.flatten, none⟩).1.trace ∧
    closeCount (readChunks P fuel chunks c).1.trace =
      closeCount (c.Read P fuel ⟨chunks.flatten, none⟩).1.trace ∧
    (c.Read P fuel ⟨chunks.flatten, none⟩).1.line =
      (readChunks P fuel chunks c).1.line ++ (readChunks P fuel chunks c).2.2.flatten ∧
    ((c.Read P fuel ⟨chunks.flatten, none⟩).2 = some true →
      (readChunks P fuel chunks c).2.2 = [] ∧
      (readChunks P fuel chunks c).1.line = (c.Read P fuel ⟨chunks.flatten, none⟩).1.line) := by
  obtain ⟨h1, h2, h3, h4, h5, h6⟩ := readChunks_vs_whole P step hF fuel chunks c hne hchunks hfuel
  refine ⟨Option.ne_none_iff_exists'.mp h1, h2, h3, ?_, ?_, h4, ?_, h5, ?_⟩
  · rw [← parsed_viewT, ← parsed_viewT, h4]
  · rw [← writes_viewT, ← writes_viewT (c.Read P fuel ⟨chunks.flatten, none⟩).1.trace, h4]
  · rw [← closeCount_viewT, ← closeCount_viewT (c.Read P fuel ⟨chunks.flatten, none⟩).1.trace, h4]
  · intro h
    have h7 := h6 h
    refine ⟨h7, ?_⟩
    rw [h5, h7]
    simp

theorem framing_read_boundary_independent_witness :
    FramedBy demoProto demoStep ∧
    ["EHLO x\r".data, "\nMAIL FROM:<a@b>\r".data, "\n".data] ≠ [] ∧
    (∀ x ∈ ["EHLO x\r".data, "\nMAIL FROM:<a@b>\r".data, "\n".data], x ≠ []) ∧
    (readChunks demoProto 30 ["EHLO x\r".data, "\nMAIL FROM:<a@b>\r".data, "\n".data]
        demoSession).2.1 =
      (demoSession.Read demoProto 30
        ⟨["EHLO x\r".data, "\nMAIL FROM:<a@b>\r".data, "\n".data].flatten, none⟩).2 ∧
    (parsed (demoSession.Read demoProto 30
        ⟨"EHLO x\r\nMAIL FROM:<a@b>\r\n".data, none⟩).1.trace).map firstLine =
      ["EHLO x".data, "MAIL FROM:<a@b>".data] :=
  ⟨demoProto_framed, by decide, by decide,
    (framing_read_boundary_independent demoProto demoStep demoProto_framed 30
      ["EHLO x\r".data, "\nMAIL FROM:<a@b>\r".data, "\n".data] demoSession
      (by decide) (by decide) (by decide)).2.1,
    by decide⟩

/-- C1, as stated, fails on the buffer: after `QUIT` a single `Read` of
    `QUIT\r\nNOOP\r\n` leaves `NOOP\r\n` in the buffer, while reading the two lines
    as two chunks leaves it empty, whether the second `Read` is skipped (as the loop
    of `Accept` does after a false result) or made all the same; made all the same,
    it also hands the line `NOOP` to the protocol, which the single `Read` never
    does. -/
theorem framing_buffer_differs_after_221 :
    FramedBy demoProto demoStep ∧
    ["QUIT\r\n".data, "NOOP\r\n".data].flatten = "QUIT\r\nNOOP\r\n".data ∧
    (demoSession.Read demoProto 30 ⟨"QUIT\r\nNOOP\r\n".data, none⟩).1.line = "NOOP\r\n".data ∧
    (readChunks demoProto 30 ["QUIT\r\n".data, "NOOP\r\n".data] demoSession).1.line = [] ∧
    (readEvery demoProto 30 ["QUIT\r\n".data, "NOOP\r\n".data] demoSession).line = [] ∧
    (parsed (demoSession.Read demoProto 30
        ⟨"QUIT\r\nNOOP\r\n".data, none⟩).1.trace).map firstLine = ["QUIT".data] ∧
    (parsed (readEvery demoProto 30 ["QUIT\r\n".data, "NOOP\r\n".data]
        demoSession).trace).map firstLine = ["QUIT".data, "NOOP".data] :=
  ⟨demoProto_framed, by decide, by decide, by decide, by decide, by decide, by decide⟩

theorem demoProto_shrinks : Shrinks demoProto :=
  Shrinks_of_FramedBy demoProto demoStep demoProto_framed

/-- C2, as stated, fails: when the peer closes the stream (a read of no bytes)
    `Read` calls `Close` and the deferred `Close` of `Accept` follows, two calls. -/
theorem Accept_closes_twice_on_end_of_stream :
    (Accept demoProto [] [] none (fun _ => ⟨[], none⟩) 8 8).2 = true ∧
    (Accept demoProto [] [] none (fun _ => ⟨[], none⟩) 8 8).1.trace =
      [Event.write "220 hello\r\n".data, Event.read [] none, Event.close, Event.close] ∧
    closeCount (Accept demoProto [] [] none (fun _ => ⟨[], none⟩) 8 8).1.trace = 2 := by
  decide

/-- C2 (amended) at a run that ends on a failed read after one good read: `Accept`
    returns and `Close` was called once. -/
theorem Accept_close_calls_witness :
    Shrinks demoProto ∧
    (Accept demoProto [] [] none
      (fun i => if i = 0 then ⟨"NOOP\r\n".data, none⟩ else ⟨"x".data, some "reset".data⟩)
      2048 2).2 = true ∧
    closeCount (Accept demoProto [] [] none
      (fun i => if i = 0 then ⟨"NOOP\r\n".data, none⟩ else ⟨"x".data, some "reset".data⟩)
      2048 2).1.trace = 1 :=
  ⟨demoProto_shrinks,
    (Accept_close_calls demoProto [] [] none
      (fun i => if i = 0 then ⟨"NOOP\r\n".data, none⟩ else ⟨"x".data, some "reset".data⟩)
      2048 2).2 demoProto_shrinks 1 (by decide) (Or.inr (by decide))
      (by intro i hi; interval_cases i <;> decide) (by decide),
    by decide⟩

/-- C3 at a read of `QUIT\r\nNOOP\r\n`: the 221 reply is written, the connection is
    closed, `Read` returns false, and the complete line `NOOP\r\n` stays unparsed in
    the buffer. -/
theorem Read_221_ends_session_witness :
    (demoSession.Read demoProto 30 ⟨"QUIT\r\nNOOP\r\n".data, none⟩).1.trace =
      demoSession.trace ++ [Event.read "QUIT\r\nNOOP\r\n".data none] ++
        Event.parse "QUIT\r\nNOOP\r\n".data (some ⟨221, ["221 Bye\r\n".data]⟩) ::
          [Event.write "221 Bye\r\n".data, Event.close] ∧
    demoProto.Status ⟨221, ["221 Bye\r\n".data]⟩ = 221 ∧
    (demoSession.Read demoProto 30 ⟨"QUIT\r\nNOOP\r\n".data, none⟩).2 = some false ∧
    (demoSession.Read demoProto 30 ⟨"QUIT\r\nNOOP\r\n".data, none⟩).1.line = "NOOP\r\n".data ∧
    stringsContains
      (demoSession.Read demoProto 30 ⟨"QUIT\r\nNOOP\r\n".data, none⟩).1.line CRLF = true :=
  ⟨by decide, by decide,
    (Read_221_ends_session demoProto 30 ⟨"QUIT\r\nNOOP\r\n".data, none⟩ demoSession
      [Event.read "QUIT\r\nNOOP\r\n".data none] [Event.write "221 Bye\r\n".data, Event.close]
      "QUIT\r\nNOOP\r\n".data ⟨221, ["221 Bye\r\n".data]⟩ (by decide) (by decide)).1,
    by decide, by decide⟩

/-- C4, as stated, fails: with a fault injector that answers true at its first poll,
    the bytes of the first read are handed to `Parse` and their reply is written
    after the greeting, before the connection is closed. -/
theorem Accept_processes_first_read_before_disconnect :
    demoMonkey.Disconnect 0 = true ∧
    (Accept demoProto [] [] (some demoMonkey) (fun _ => ⟨"NOOP\r\n".data, none⟩) 8 8).1.trace =
      [Event.write "220 hello\r\n".data, Event.read "NOOP\r\n".data none,
        Event.parse "NOOP\r\n".data (some ⟨250, ["250 Ok\r\n".data]⟩),
        Event.write "250 Ok\r\n".data, Event.disconnect true, Event.close, Event.close] ∧
    parsed (Accept demoProto [] [] (some demoMonkey)
      (fun _ => ⟨"NOOP\r\n".data, none⟩) 8 8).1.trace = ["NOOP\r\n".data] ∧
    writes (Accept demoProto [] [] (some demoMonkey)
      (fun _ => ⟨"NOOP\r\n".data, none⟩) 8 8).1.trace =
      ["220 hello\r\n".data, "250 Ok\r\n".data] := by
  decide

/-- C4 (amended) at a concrete run: what the second and later reads would deliver
    makes no difference. -/
theorem Accept_disconnect_first_poll_witness :
    demoMonkey.Disconnect 0 = true ∧
    Accept demoProto [] [] (some demoMonkey)
      (fun i => if i = 0 then ⟨"NOOP\r\n".data, none⟩ else ⟨"QUIT\r\n".data, none⟩) 8 1 =
    Accept demoProto [] [] (some demoMonkey) (fun _ => ⟨"NOOP\r\n".data, none⟩) 8 4 :=
  ⟨by decide,
    (Accept_disconnect_first_poll demoProto [] [] demoMonkey
      (fun _ => ⟨"NOOP\r\n".data, none⟩) 8 3 (by decide)).2
      (fun i => if i = 0 then ⟨"NOOP\r\n".data, none⟩ else ⟨"QUIT\r\n".data, none⟩)
      (by decide) 0⟩

/-- C5, as stated, fails: when the reader returns no bytes together with an error
    (end of stream), `Read` returns false and does call `Close`. -/
theorem Read_closes_on_error_without_bytes :
    (⟨[], some "EOF".data⟩ : ReadResult).err.isSome = true ∧
    (demoSession.Read demoProto 8 ⟨[], some "EOF".data⟩).2 = some false ∧
    (demoSession.Read demoProto 8 ⟨[], some "EOF".data⟩).1.trace =
      [Event.read [] (some "EOF".data), Event.close] ∧
    closeCount demoSession.trace = 0 ∧
    closeCount (demoSession.Read demoProto 8 ⟨[], some "EOF".data⟩).1.trace = 1 := by
  decide

/-- C5 (amended) at a failed read that delivered one byte: `Read` returns false and
    the trace gains the read only. -/
theorem Read_error_stops_witness :
    (⟨"x".data, some "reset".data⟩ : ReadResult).err.isSome = true ∧
    (demoSession.Read demoProto 8 ⟨"x".data, some "reset".data⟩).2 = some false ∧
    closeCount (demoSession.Read demoProto 8 ⟨"x".data, some "reset".data⟩).1.trace =
      closeCount demoSession.trace :=
  ⟨by decide,
    (Read_error_stops demoProto 8 ⟨"x".data, some "reset".data⟩ demoSession (by decide)).1,
    ((Read_error_stops demoProto 8 ⟨"x".data, some "reset".data⟩ demoSession
      (by decide)).2.2.2.1 (by decide)).2⟩

/-- C9 at a read of one complete line and the start of the next: `Read` returns true
    and the buffer holds no terminator. -/
theorem Read_true_drains_buffer_witness :
    Shrinks demoProto ∧
    (demoSession.Read demoProto 30 ⟨"NOOP\r\nQU".data, none⟩).2 = some true ∧
    (demoSession.Read demoProto 30 ⟨"NOOP\r\nQU".data, none⟩).1.line = "QU".data ∧
    stringsContains (demoSession.Read demoProto 30 ⟨"NOOP\r\nQU".data, none⟩).1.line CRLF =
      false ∧
    (∃ b, (demoSession.Read demoProto 30 ⟨"NOOP\r\nQU".data, none⟩).2 = some b) :=
  ⟨demoProto_shrinks, by decide, by decide,
    (Read_true_drains_buffer demoProto 30 ⟨"NOOP\r\nQU".data, none⟩ demoSession).1 (by decide),
    (Read_true_drains_buffer demoProto 30 ⟨"NOOP\r\nQU".data, none⟩ demoSession).2
      demoProto_shrinks (by decide)⟩

/-- C6 at a store that fails: the message is still sent on the channel, once, and the
    error of `Store` is returned with the empty id. -/
theorem acceptMessage_publishes_once_witness :
    (demoSession.acceptMessage (fun _ => "mailhog.example".data) (fun (m : Str) _ => m)
      (MongoDB.Store demoInsert id) ⟨[], [], []⟩ []).1.messageChan = [[]] ∧
    (demoSession.acceptMessage (fun _ => "mailhog.example".data) (fun (m : Str) _ => m)
      (MongoDB.Store demoInsert id) ⟨[], [], []⟩ []).2 = ([], some "insert failed".data) ∧
    (demoSession.acceptMessage (fun _ => "mailhog.example".data) (fun (m : Str) _ => m)
      (MongoDB.Store demoInsert id) ⟨[], [], []⟩ "m1".data).2 = ("m1".data, none) :=
  ⟨(acceptMessage_publishes_once (fun _ => "mailhog.example".data) (fun (m : Str) _ => m)
      (MongoDB.Store demoInsert id) demoSession ⟨[], [], []⟩ []).1,
    by decide, by decide⟩

end MailHog
